import Mathlib

set_option maxRecDepth 100000

/-!
Verification of the passman encrypted password store (src/main.rs).

The embedding models the store at the level of characters and natural-number
bytes.  The JSON documents written by `serde_json` (the compact form this
program produces), the standard base64 alphabet with padding, and SHA-256 are
implemented concretely.  The AES-256-GCM AEAD from the external `aes_gcm`
crate is modelled from the spec as an ideal authenticated cipher.  File
system state is an `Option (List Char)`: `none` when the backing file does
not exist, `some text` for its contents.
-/

namespace Passman

/-- Account record: `struct Account { password: String, notes: String }`. -/
structure Account where
  password : String
  notes : String
deriving DecidableEq, Repr

/-- `type AccountStore = HashMap<String, Account>`, modelled as an
association list with unique keys (iteration order made explicit). -/
abbrev AccountStore := List (String × Account)

/-- `HashMap::contains_key`. -/
def containsKey (m : AccountStore) (u : String) : Bool :=
  m.any (fun e => e.1 == u)

/-- `HashMap::get`. -/
def getKey (m : AccountStore) (u : String) : Option Account :=
  (m.find? (fun e => e.1 == u)).map (fun e => e.2)

/-- `HashMap::insert`: replaces the value when the key is present, otherwise
adds a new entry. -/
def insertKey (m : AccountStore) (u : String) (a : Account) : AccountStore :=
  if containsKey m u then m.map (fun e => if e.1 == u then (u, a) else e)
  else m ++ [(u, a)]

/-- `HashMap::remove`. -/
def removeKey (m : AccountStore) (u : String) : AccountStore :=
  m.filter (fun e => !(e.1 == u))

/-- Field update performed by `update_account` through `get_mut`:
`if let Some(password) = password { account.password = ... }` and likewise
for notes. -/
def applyUpdate (a : Account) (password notes : Option String) : Account :=
  { password := password.getD a.password, notes := notes.getD a.notes }

/-- In-place mutation of the entry for `u` (the effect of `get_mut`). -/
def updateKey (m : AccountStore) (u : String) (password notes : Option String) :
    AccountStore :=
  m.map (fun e => if e.1 == u then (e.1, applyUpdate e.2 password notes) else e)

/-- The keys of the map are pairwise distinct (the `HashMap` invariant). -/
def keysDistinct (m : AccountStore) : Prop :=
  m.Pairwise (fun e e' => e.1 ≠ e'.1)

/-! ## JSON strings, as printed by serde_json (compact form) -/

/-- Lowercase hexadecimal digit. -/
def hexDigit (n : Nat) : Char :=
  if n < 10 then Char.ofNat (48 + n) else Char.ofNat (87 + n % 16)

/-- Value of a hexadecimal digit character. -/
def unhex (c : Char) : Option Nat :=
  if 48 ≤ c.toNat ∧ c.toNat ≤ 57 then some (c.toNat - 48)
  else if 97 ≤ c.toNat ∧ c.toNat ≤ 102 then some (c.toNat - 87)
  else if 65 ≤ c.toNat ∧ c.toNat ≤ 70 then some (c.toNat - 55)
  else none

/-- serde_json's escaping of a single character inside a JSON string:
quote and backslash get a two-character escape, the five control characters
with short escapes use them, the remaining control characters are written
as a `u00XX` escape, and every other character (ASCII or not) is emitted
verbatim. -/
def escChar (c : Char) : List Char :=
  if c.toNat = 34 then ['\\', '"']
  else if c.toNat = 92 then ['\\', '\\']
  else if c.toNat = 8 then ['\\', 'b']
  else if c.toNat = 9 then ['\\', 't']
  else if c.toNat = 10 then ['\\', 'n']
  else if c.toNat = 12 then ['\\', 'f']
  else if c.toNat = 13 then ['\\', 'r']
  else if c.toNat < 32 then
    ['\\', 'u', '0', '0', hexDigit (c.toNat / 16), hexDigit (c.toNat % 16)]
  else [c]

/-- A JSON string literal: quote, escaped characters, closing quote. -/
def printJString (s : String) : List Char :=
  '"' :: (s.data.foldr (fun c acc => escChar c ++ acc) ['"'])

/-- Decode a single-character escape. -/
def escUnquote (e : Char) : Option Char :=
  if e = '"' then some '"'
  else if e = '\\' then some '\\'
  else if e = 'b' then some (Char.ofNat 8)
  else if e = 't' then some (Char.ofNat 9)
  else if e = 'n' then some (Char.ofNat 10)
  else if e = 'f' then some (Char.ofNat 12)
  else if e = 'r' then some (Char.ofNat 13)
  else none

/-- Parse the body of a JSON string (everything after the opening quote) up
to and including the closing quote; returns the decoded characters and the
remaining input. -/
def parseJStringAux : List Char → Option (List Char × List Char)
  | [] => none
  | c :: cs =>
    if c = '"' then some ([], cs)
    else if c = '\\' then
      match cs with
      | [] => none
      | e :: cs' =>
        if e = 'u' then
          match cs' with
          | h1 :: h2 :: h3 :: h4 :: cs'' =>
            match unhex h1, unhex h2, unhex h3, unhex h4 with
            | some d1, some d2, some d3, some d4 =>
              match parseJStringAux cs'' with
              | none => none
              | some (s, rest) =>
                some (Char.ofNat (((d1 * 16 + d2) * 16 + d3) * 16 + d4) :: s, rest)
            | _, _, _, _ => none
          | _ => none
        else
          match escUnquote e with
          | none => none
          | some d =>
            match parseJStringAux cs' with
            | none => none
            | some (s, rest) => some (d :: s, rest)
    else
      match parseJStringAux cs with
      | none => none
      | some (s, rest) => some (c :: s, rest)

/-- Parse a JSON string literal, opening quote included. -/
def parseJString : List Char → Option (String × List Char)
  | [] => none
  | c :: cs =>
    if c = '"' then
      match parseJStringAux cs with
      | none => none
      | some (s, rest) => some (⟨s⟩, rest)
    else none

/-- Match an exact sequence of characters, returning the remaining input. -/
def parseLit : List Char → List Char → Option (List Char)
  | [], cs => some cs
  | _ :: _, [] => none
  | l :: ls, c :: cs => if c = l then parseLit ls cs else none

/-! ## The envelope document
`struct PasswordStore { iv: String, encrypted_data: String }`, written by
`serde_json::to_string` in compact form with the fields in declaration
order, and read back by `serde_json::from_str` (which requires the complete
document with nothing trailing). -/

/-- Literal opening of the envelope document up to the `iv` value. -/
def envLit1 : List Char := ['\x7b', '"', 'i', 'v', '"', ':']

/-- Literal between the `iv` value and the `encrypted_data` value. -/
def envLit2 : List Char :=
  [',', '"', 'e', 'n', 'c', 'r', 'y', 'p', 't', 'e', 'd', '_', 'd', 'a', 't', 'a', '"', ':']

/-- The envelope text `serde_json::to_string(&PasswordStore ...)` produces. -/
def printEnvelope (iv data : String) : List Char :=
  envLit1 ++ printJString iv ++ envLit2 ++ printJString data ++ ['\x7d']

/-- Parse an envelope document, returning the remaining input. -/
def parseEnvelopeAux (cs : List Char) : Option ((String × String) × List Char) :=
  match parseLit envLit1 cs with
  | none => none
  | some cs1 =>
    match parseJString cs1 with
    | none => none
    | some (iv, cs2) =>
      match parseLit envLit2 cs2 with
      | none => none
      | some cs3 =>
        match parseJString cs3 with
        | none => none
        | some (data, cs4) =>
          match parseLit ['\x7d'] cs4 with
          | none => none
          | some cs5 => some ((iv, data), cs5)

/-- `serde_json::from_str::<PasswordStore>`: the whole input must be one
envelope document. -/
def parseEnvelope (cs : List Char) : Option (String × String) :=
  match parseEnvelopeAux cs with
  | some (e, []) => some e
  | _ => none

/-! ## The account map document
`serde_json::to_vec(&accounts)` / `serde_json::from_slice::<AccountStore>`:
a JSON object mapping each username to `{"password":...,"notes":...}`. -/

/-- Literal opening of an account value up to the `password` value. -/
def pwLit : List Char := ['\x7b', '"', 'p', 'a', 's', 's', 'w', 'o', 'r', 'd', '"', ':']

/-- Literal between the `password` value and the `notes` value. -/
def ntLit : List Char := [',', '"', 'n', 'o', 't', 'e', 's', '"', ':']

/-- The JSON object for one `Account` value. -/
def printAccount (a : Account) : List Char :=
  pwLit ++ printJString a.password ++ ntLit ++ printJString a.notes ++ ['\x7d']

/-- One `"username":{...}` member. -/
def printEntry (e : String × Account) : List Char :=
  printJString e.1 ++ ':' :: printAccount e.2

/-- The members after the first one, each preceded by a comma. -/
def sepEntries (es : AccountStore) : List Char :=
  es.foldr (fun e acc => ',' :: printEntry e ++ acc) []

/-- All members of the object, comma separated. -/
def printEntries : AccountStore → List Char
  | [] => []
  | e :: es => printEntry e ++ sepEntries es

/-- The serialized account map (`serde_json::to_vec`, with the byte level
read as characters). -/
def encodeAccounts (m : AccountStore) : List Char :=
  '\x7b' :: (printEntries m ++ ['\x7d'])

/-- Parse one account value. -/
def parseAccount (cs : List Char) : Option (Account × List Char) :=
  match parseLit pwLit cs with
  | none => none
  | some cs1 =>
    match parseJString cs1 with
    | none => none
    | some (pw, cs2) =>
      match parseLit ntLit cs2 with
      | none => none
      | some cs3 =>
        match parseJString cs3 with
        | none => none
        | some (nt, cs4) =>
          match parseLit ['\x7d'] cs4 with
          | none => none
          | some cs5 => some (⟨pw, nt⟩, cs5)

/-- Parse one `"username":{...}` member. -/
def parseEntry (cs : List Char) : Option ((String × Account) × List Char) :=
  match parseJString cs with
  | none => none
  | some (u, cs1) =>
    match parseLit [':'] cs1 with
    | none => none
    | some cs2 =>
      match parseAccount cs2 with
      | none => none
      | some (a, cs3) => some ((u, a), cs3)

/-- Parse the `(',' member)*` tail of the object; the fuel bounds the
number of members and only decreases when one is consumed. -/
def parseEntriesRest : Nat → List Char → Option (AccountStore × List Char)
  | 0, _ => none
  | _ + 1, [] => some ([], [])
  | fuel + 1, c :: cs =>
    if c = ',' then
      match parseEntry cs with
      | none => none
      | some (e, cs1) =>
        match parseEntriesRest fuel cs1 with
        | none => none
        | some (es, rest) => some (e :: es, rest)
    else some ([], c :: cs)

/-- Parse the account map object, returning the remaining input. -/
def parseAccountsAux (cs : List Char) : Option (AccountStore × List Char) :=
  match cs with
  | [] => none
  | c :: cs1 =>
    if c = '\x7b' then
      match cs1 with
      | [] => none
      | c' :: cs2 =>
        if c' = '\x7d' then some ([], cs2)
        else
          match parseEntry (c' :: cs2) with
          | none => none
          | some (e, cs3) =>
            match parseEntriesRest (cs3.length + 1) cs3 with
            | none => none
            | some (es, cs4) =>
              match parseLit ['\x7d'] cs4 with
              | none => none
              | some cs5 => some (e :: es, cs5)
    else none

/-- `serde_json::from_slice::<AccountStore>`: the whole payload must be one
account map document. -/
def decodeAccounts (cs : List Char) : Option AccountStore :=
  match parseAccountsAux cs with
  | some (m, []) => some m
  | _ => none

/-! ## Base64 (standard alphabet, with padding), as used through
`general_purpose::STANDARD.encode` / `.decode` -/

/-- The base64 alphabet. -/
def b64Char (n : Nat) : Char :=
  if n < 26 then Char.ofNat (65 + n)
  else if n < 52 then Char.ofNat (71 + n)
  else if n < 62 then Char.ofNat (n - 4)
  else if n = 62 then '+'
  else '/'

/-- Inverse of the base64 alphabet. -/
def b64Inv (c : Char) : Option Nat :=
  if 65 ≤ c.toNat ∧ c.toNat ≤ 90 then some (c.toNat - 65)
  else if 97 ≤ c.toNat ∧ c.toNat ≤ 122 then some (c.toNat - 71)
  else if 48 ≤ c.toNat ∧ c.toNat ≤ 57 then some (c.toNat + 4)
  else if c.toNat = 43 then some 62
  else if c.toNat = 47 then some 63
  else none

/-- Base64 encoding of a byte sequence, three bytes at a time, with `=`
padding on the final partial group. -/
def b64Encode : List Nat → List Char
  | [] => []
  | [a] => [b64Char (a / 4), b64Char (a % 4 * 16), '=', '=']
  | [a, b] => [b64Char (a / 4), b64Char (a % 4 * 16 + b / 16), b64Char (b % 16 * 4), '=']
  | a :: b :: c :: rest =>
    b64Char (a / 4) :: b64Char (a % 4 * 16 + b / 16) ::
      b64Char (b % 16 * 4 + c / 64) :: b64Char (c % 64) :: b64Encode rest

/-- Base64 decoding, four characters at a time; padding only at the end. -/
def b64Decode : List Char → Option (List Nat)
  | [] => some []
  | c1 :: c2 :: c3 :: c4 :: rest =>
    match b64Inv c1, b64Inv c2 with
    | some d1, some d2 =>
      if c3 = '=' then
        if c4 = '=' then if rest = [] then some [d1 * 4 + d2 / 16] else none
        else none
      else
        match b64Inv c3 with
        | none => none
        | some d3 =>
          if c4 = '=' then
            if rest = [] then some [d1 * 4 + d2 / 16, d2 % 16 * 16 + d3 / 4] else none
          else
            match b64Inv c4 with
            | none => none
            | some d4 =>
              match b64Decode rest with
              | none => none
              | some bs =>
                some ((d1 * 4 + d2 / 16) :: (d2 % 16 * 16 + d3 / 4) :: (d3 % 4 * 64 + d4) :: bs)
    | _, _ => none
  | _ => none

/-! ## Characters as bytes
The plaintext handed to the cipher is the serialized account document; its
characters are carried through the byte level as four big-endian bytes per
character. -/

/-- Four big-endian bytes of a character's code point. -/
def charBytes (c : Char) : List Nat :=
  [c.toNat / 16777216 % 256, c.toNat / 65536 % 256, c.toNat / 256 % 256, c.toNat % 256]

/-- Byte view of a character sequence. -/
def charsToBytes (cs : List Char) : List Nat :=
  cs.foldr (fun c acc => charBytes c ++ acc) []

/-- Recover a character sequence from its byte view; fails on bytes that do
not code a valid character. -/
def bytesToChars : List Nat → Option (List Char)
  | [] => some []
  | b0 :: b1 :: b2 :: b3 :: rest =>
    if Nat.isValidChar (((b0 * 256 + b1) * 256 + b2) * 256 + b3) then
      match bytesToChars rest with
      | none => none
      | some cs => some (Char.ofNat (((b0 * 256 + b1) * 256 + b2) * 256 + b3) :: cs)
    else none
  | _ => none

/-! ## The sealed store -/

/-- Modelled from the spec: the AEAD of the external `aes_gcm` crate
(`Aes256Gcm::encrypt`, not part of this repository) as an ideal
authenticated cipher.  Sealing binds the ciphertext to the 32-byte key and
the 12-byte nonce together with the payload; the integrity tag is the
embedded key/nonce material itself. -/
def sealAead (key nonce : List Nat) (pt : List Char) : List Nat :=
  key ++ nonce ++ charsToBytes pt

/-- Modelled from the spec: `Aes256Gcm::decrypt` of the external `aes_gcm`
crate as an ideal authenticated cipher: authentication succeeds exactly when
key and nonce match the ones the ciphertext was sealed under and the payload
is intact; otherwise it fails with no plaintext. -/
def openSealed (key nonce ct : List Nat) : Option (List Char) :=
  if ct.take 32 = key ∧ (ct.drop 32).take 12 = nonce then
    bytesToChars ((ct.drop 32).drop 12)
  else none

/-! ## SHA-256 (the `sha2` crate's `Sha256`), over naturals mod 2^32 -/

/-- Truncation to a 32-bit word. -/
def w32 (x : Nat) : Nat := x % 4294967296

/-- Right rotation of a 32-bit word. -/
def rotr32 (n x : Nat) : Nat := w32 (x / 2 ^ n + x % 2 ^ n * 2 ^ (32 - n))

/-- SHA-256 Σ₀. -/
def bigSig0 (x : Nat) : Nat := rotr32 2 x ^^^ rotr32 13 x ^^^ rotr32 22 x

/-- SHA-256 Σ₁. -/
def bigSig1 (x : Nat) : Nat := rotr32 6 x ^^^ rotr32 11 x ^^^ rotr32 25 x

/-- SHA-256 σ₀. -/
def smallSig0 (x : Nat) : Nat := rotr32 7 x ^^^ rotr32 18 x ^^^ x / 8

/-- SHA-256 σ₁. -/
def smallSig1 (x : Nat) : Nat := rotr32 17 x ^^^ rotr32 19 x ^^^ x / 1024

/-- SHA-256 Ch. -/
def chF (x y z : Nat) : Nat := (x &&& y) ^^^ ((x ^^^ 4294967295) &&& z)

/-- SHA-256 Maj. -/
def majF (x y z : Nat) : Nat := (x &&& y) ^^^ (x &&& z) ^^^ (y &&& z)

/-- The eight working variables of the compression function. -/
structure Sha8 where
  a : Nat
  b : Nat
  c : Nat
  d : Nat
  e : Nat
  f : Nat
  g : Nat
  h : Nat

/-- The SHA-256 round constants. -/
def shaK : List Nat :=
  [1116352408, 1899447441, 3049323471, 3921009573, 961987163,
   1508970993, 2453635748, 2870763221, 3624381080, 310598401,
   607225278, 1426881987, 1925078388, 2162078206, 2614888103,
   3248222580, 3835390401, 4022224774, 264347078, 604807628,
   770255983, 1249150122, 1555081692, 1996064986, 2554220882,
   2821834349, 2952996808, 3210313671, 3336571891, 3584528711,
   113926993, 338241895, 666307205, 773529912, 1294757372,
   1396182291, 1695183700, 1986661051, 2177026350, 2456956037,
   2730485921, 2820302411, 3259730800, 3345764771, 3516065817,
   3600352804, 4094571909, 275423344, 430227734, 506948616,
   659060556, 883997877, 958139571, 1322822218, 1537002063,
   1747873779, 1955562222, 2024104815, 2227730452, 2361852424,
   2428436474, 2756734187, 3204031479, 3329325298]

/-- The SHA-256 initial hash value. -/
def shaH0 : Sha8 :=
  ⟨1779033703, 3144134277, 1013904242, 2773480762,
   1359893119, 2600822924, 528734635, 1541459225⟩

/-- Big-endian 32-bit words of a byte sequence. -/
def toWords : List Nat → List Nat
  | b0 :: b1 :: b2 :: b3 :: rest => (((b0 * 256 + b1) * 256 + b2) * 256 + b3) :: toWords rest
  | _ => []

/-- Extend the sixteen block words by the given number of schedule words. -/
def schedExtend : Nat → List Nat → List Nat
  | 0, ws => ws
  | n + 1, ws =>
    schedExtend n (ws ++ [w32 (smallSig1 (ws.getD (ws.length - 2) 0) + ws.getD (ws.length - 7) 0 +
      smallSig0 (ws.getD (ws.length - 15) 0) + ws.getD (ws.length - 16) 0)])

/-- One SHA-256 round. -/
def roundStep (st : Sha8) (kw : Nat × Nat) : Sha8 :=
  let t1 := w32 (st.h + bigSig1 st.e + chF st.e st.f st.g + kw.1 + kw.2)
  let t2 := w32 (bigSig0 st.a + majF st.a st.b st.c)
  ⟨w32 (t1 + t2), st.a, st.b, st.c, w32 (st.d + t1), st.e, st.f, st.g⟩

/-- The SHA-256 compression function on one 64-byte block. -/
def compress (st : Sha8) (block : List Nat) : Sha8 :=
  let ws := schedExtend 48 (toWords block)
  let r := (shaK.zip ws).foldl roundStep st
  ⟨w32 (st.a + r.a), w32 (st.b + r.b), w32 (st.c + r.c), w32 (st.d + r.d),
   w32 (st.e + r.e), w32 (st.f + r.f), w32 (st.g + r.g), w32 (st.h + r.h)⟩

/-- Big-endian 64-bit length field of the padding. -/
def len64 (n : Nat) : List Nat :=
  [n / 2 ^ 56 % 256, n / 2 ^ 48 % 256, n / 2 ^ 40 % 256, n / 2 ^ 32 % 256,
   n / 2 ^ 24 % 256, n / 2 ^ 16 % 256, n / 2 ^ 8 % 256, n % 256]

/-- SHA-256 message padding: `0x80`, zeros to 56 mod 64, 64-bit bit length. -/
def shaPad (msg : List Nat) : List Nat :=
  msg ++ 128 :: (List.replicate ((119 - msg.length % 64) % 64) 0 ++ len64 (msg.length * 8))

/-- Fold the compression function over the 64-byte blocks. -/
def shaBlocks : Nat → Sha8 → List Nat → Sha8
  | 0, st, _ => st
  | _ + 1, st, [] => st
  | fuel + 1, st, msg => shaBlocks fuel (compress st (msg.take 64)) (msg.drop 64)

/-- Big-endian bytes of one hash word. -/
def word4 (n : Nat) : List Nat :=
  [n / 16777216 % 256, n / 65536 % 256, n / 256 % 256, n % 256]

/-- The 32 digest bytes. -/
def digestBytes (st : Sha8) : List Nat :=
  word4 st.a ++ word4 st.b ++ word4 st.c ++ word4 st.d ++
    word4 st.e ++ word4 st.f ++ word4 st.g ++ word4 st.h

/-- SHA-256 of a byte sequence (`Sha256::digest` of the `sha2` crate). -/
def sha256 (msg : List Nat) : List Nat :=
  digestBytes (shaBlocks (shaPad msg).length shaH0 (shaPad msg))

/-- UTF-8 bytes of one character. -/
def utf8Char (c : Char) : List Nat :=
  if c.toNat < 128 then [c.toNat]
  else if c.toNat < 2048 then [192 + c.toNat / 64, 128 + c.toNat % 64]
  else if c.toNat < 65536 then
    [224 + c.toNat / 4096, 128 + c.toNat / 64 % 64, 128 + c.toNat % 64]
  else
    [240 + c.toNat / 262144, 128 + c.toNat / 4096 % 64, 128 + c.toNat / 64 % 64, 128 + c.toNat % 64]

/-- UTF-8 bytes of a string (`master_key.as_bytes()`). -/
def utf8Bytes (s : String) : List Nat :=
  s.data.foldr (fun c acc => utf8Char c ++ acc) []

/-- `fn derive_key`: SHA-256 of the passphrase's UTF-8 bytes; the
`copy_from_slice` into a `[u8; 32]` is the identity because the digest has
exactly 32 bytes. -/
def derive_key (master_key : String) : List Nat :=
  sha256 (utf8Bytes master_key)

/-! ## Persistence and the account repository -/

/-- `enum AppError` of src/main.rs.  The `io`/`serde`/`base64` payloads are
not inspected by the program, so they are not carried. -/
inductive AppError where
  | ioError : AppError
  | serdeError : AppError
  | base64Error : AppError
  | aesError : String → AppError
  | otherError : String → AppError
deriving DecidableEq, Repr

/-- Decidable equality of results. -/
instance {ε α : Type} [DecidableEq ε] [DecidableEq α] : DecidableEq (Except ε α) := fun a b =>
  match a, b with
  | .ok x, .ok y => if h : x = y then isTrue (by rw [h]) else isFalse (by simp [h])
  | .error x, .error y => if h : x = y then isTrue (by rw [h]) else isFalse (by simp [h])
  | .ok _, .error _ => isFalse (by simp)
  | .error _, .ok _ => isFalse (by simp)

/-- The backing file `.passman_data.json`: `none` when it does not exist,
otherwise its text. -/
abbrev FileState := Option (List Char)

/-- A well-formed AES-256 key: 32 bytes (`[u8; 32]`). -/
def ValidKey (key : List Nat) : Prop :=
  key.length = 32 ∧ ∀ b ∈ key, b < 256

/-- A well-formed GCM nonce: 12 bytes (`[u8; NONCE_LENGTH]`). -/
def ValidNonce (nonce : List Nat) : Prop :=
  nonce.length = 12 ∧ ∀ b ∈ nonce, b < 256

/-- `fn load_accounts`: missing file means the empty store; otherwise parse
the envelope, base64-decode the nonce and the ciphertext, authenticated
decrypt, and deserialize the account map. -/
def loadAccounts (key : List Nat) (fs : FileState) : Except AppError AccountStore :=
  match fs with
  | none => .ok []
  | some text =>
    match parseEnvelope text with
    | none => .error .serdeError
    | some (ivStr, dataStr) =>
      match b64Decode ivStr.data with
      | none => .error .base64Error
      | some iv =>
        match b64Decode dataStr.data with
        | none => .error .base64Error
        | some ct =>
          match openSealed key iv ct with
          | none => .error (.aesError "加密/解密操作失败")
          | some pt =>
            match decodeAccounts pt with
            | none => .error .serdeError
            | some accounts => .ok accounts

/-- `fn save_accounts`: serialize the map, encrypt it under the freshly
drawn nonce (`rand::random`, passed here as the `nonce` argument), and
render the envelope document that `fs::write` persists. -/
def saveAccounts (key nonce : List Nat) (accounts : AccountStore) : List Char :=
  let data := encodeAccounts accounts
  let encrypted := sealAead key nonce data
  printEnvelope ⟨b64Encode nonce⟩ ⟨b64Encode encrypted⟩

/-- `fn add_account`.  The pair is the call's result and the backing file
afterwards; a failed load or a duplicate username writes nothing. -/
def addAccount (key : List Nat) (username password notes : String) (nonce : List Nat)
    (fs : FileState) : Except AppError Unit × FileState :=
  match loadAccounts key fs with
  | .error e => (.error e, fs)
  | .ok accounts =>
    if containsKey accounts username then (.error (.otherError "账号已存在"), fs)
    else
      (.ok (), some (saveAccounts key nonce (insertKey accounts username ⟨password, notes⟩)))

/-- `fn delete_account`. -/
def deleteAccount (key : List Nat) (username : String) (nonce : List Nat)
    (fs : FileState) : Except AppError Unit × FileState :=
  match loadAccounts key fs with
  | .error e => (.error e, fs)
  | .ok accounts =>
    if containsKey accounts username then
      (.ok (), some (saveAccounts key nonce (removeKey accounts username)))
    else (.error (.otherError "账号不存在"), fs)

/-- `fn update_account`: overwrite exactly the provided fields of the
existing entry, then persist. -/
def updateAccount (key : List Nat) (username : String) (password notes : Option String)
    (nonce : List Nat) (fs : FileState) : Except AppError Unit × FileState :=
  match loadAccounts key fs with
  | .error e => (.error e, fs)
  | .ok accounts =>
    if containsKey accounts username then
      (.ok (), some (saveAccounts key nonce (updateKey accounts username password notes)))
    else (.error (.otherError "账号不存在"), fs)

/-- `fn list_accounts`: read only; the returned rows are the table the
program prints. -/
def listAccounts (key : List Nat) (fs : FileState) :
    Except AppError (List (String × Account)) × FileState :=
  match loadAccounts key fs with
  | .error e => (.error e, fs)
  | .ok accounts => (.ok accounts, fs)

/-- `fn get_account`: read only; returns the stored account that the
program prints. -/
def getAccount (key : List Nat) (username : String) (fs : FileState) :
    Except AppError Account × FileState :=
  match loadAccounts key fs with
  | .error e => (.error e, fs)
  | .ok accounts =>
    if containsKey accounts username then
      match getKey accounts username with
      | some a => (.ok a, fs)
      | none => (.error (.otherError "账号不存在"), fs)
    else (.error (.otherError "账号不存在"), fs)


/-! ## Concrete fixtures used to instantiate the theorems -/

/-- A concrete 32-byte key. -/
def keyW : List Nat := List.range 32

/-- A concrete 12-byte nonce. -/
def nonceW : List Nat := List.range 12

/-- A second, different 12-byte nonce. -/
def nonceW2 : List Nat := List.replicate 12 9

/-- A concrete account. -/
def acctW : Account := ⟨"p1", "n"⟩

/-- A concrete one-entry store. -/
def storeW : AccountStore := [("alice", acctW)]

/-- A backing file holding `storeW` sealed under `keyW` and `nonceW`. -/
def fsW : FileState := some (saveAccounts keyW nonceW storeW)

theorem char_eq_iff {c d : Char} : c = d ↔ c.toNat = d.toNat :=
  ⟨fun h => by rw [h], fun h => Char.ext (UInt32.toNat.inj h)⟩

theorem escFold_append (s i t : List Char) :
    (s.foldr (fun c acc => escChar c ++ acc) i) ++ t =
      s.foldr (fun c acc => escChar c ++ acc) (i ++ t) := by
  induction s with
  | nil => rfl
  | cons c s ih => simp only [List.foldr_cons, List.append_assoc, ih]

theorem unhex_hexDigit : ∀ n, n < 16 → unhex (hexDigit n) = some n := by decide

theorem parseJStringAux_print (s rest : List Char) :
    parseJStringAux (s.foldr (fun c acc => escChar c ++ acc) ('"' :: rest)) = some (s, rest) := by
  induction s with
  | nil => unfold parseJStringAux; rfl
  | cons c s ih =>
    simp only [List.foldr_cons]
    by_cases h34 : c.toNat = 34
    · have hc : c = '"' := char_eq_iff.mpr (by simpa using h34)
      subst hc
      rw [show escChar '"' = ['\\', '"'] from by decide]
      simp only [List.cons_append, List.nil_append]
      unfold parseJStringAux
      simp +decide [escUnquote, ih]
    · by_cases h92 : c.toNat = 92
      · have hc : c = '\\' := char_eq_iff.mpr (by simpa using h92)
        subst hc
        rw [show escChar '\\' = ['\\', '\\'] from by decide]
        simp only [List.cons_append, List.nil_append]
        unfold parseJStringAux
        simp +decide [escUnquote, ih]
      · by_cases h8 : c.toNat = 8
        · have hc : c = Char.ofNat 8 := by rw [← h8, Char.ofNat_toNat]
          subst hc
          rw [show escChar (Char.ofNat 8) = ['\\', 'b'] from by decide]
          simp only [List.cons_append, List.nil_append]
          unfold parseJStringAux
          simp +decide [escUnquote, ih]
        · by_cases h9 : c.toNat = 9
          · have hc : c = Char.ofNat 9 := by rw [← h9, Char.ofNat_toNat]
            subst hc
            rw [show escChar (Char.ofNat 9) = ['\\', 't'] from by decide]
            simp only [List.cons_append, List.nil_append]
            unfold parseJStringAux
            simp +decide [escUnquote, ih]
          · by_cases h10 : c.toNat = 10
            · have hc : c = Char.ofNat 10 := by rw [← h10, Char.ofNat_toNat]
              subst hc
              rw [show escChar (Char.ofNat 10) = ['\\', 'n'] from by decide]
              simp only [List.cons_append, List.nil_append]
              unfold parseJStringAux
              simp +decide [escUnquote, ih]
            · by_cases h12 : c.toNat = 12
              · have hc : c = Char.ofNat 12 := by rw [← h12, Char.ofNat_toNat]
                subst hc
                rw [show escChar (Char.ofNat 12) = ['\\', 'f'] from by decide]
                simp only [List.cons_append, List.nil_append]
                unfold parseJStringAux
                simp +decide [escUnquote, ih]
              · by_cases h13 : c.toNat = 13
                · have hc : c = Char.ofNat 13 := by rw [← h13, Char.ofNat_toNat]
                  subst hc
                  rw [show escChar (Char.ofNat 13) = ['\\', 'r'] from by decide]
                  simp only [List.cons_append, List.nil_append]
                  unfold parseJStringAux
                  simp +decide [escUnquote, ih]
                · by_cases hlt : c.toNat < 32
                  · have hesc : escChar c =
                        ['\\', 'u', '0', '0', hexDigit (c.toNat / 16), hexDigit (c.toNat % 16)] := by
                      unfold escChar
                      simp [h34, h92, h8, h9, h10, h12, h13, hlt]
                    rw [hesc]
                    simp only [List.cons_append, List.nil_append]
                    unfold parseJStringAux
                    simp +decide [show unhex '0' = some 0 from by decide,
                      unhex_hexDigit _ (show c.toNat / 16 < 16 by omega),
                      unhex_hexDigit _ (show c.toNat % 16 < 16 by omega), ih]
                    rw [show c.toNat / 16 * 16 + c.toNat % 16 = c.toNat from by omega,
                      Char.ofNat_toNat]
                  · have hesc : escChar c = [c] := by
                      unfold escChar
                      simp [h34, h92, h8, h9, h10, h12, h13, hlt]
                    rw [hesc]
                    simp only [List.cons_append, List.nil_append]
                    have e1 : ¬ (c = '"') := fun h => h34 (by rw [h]; decide)
                    have e2 : ¬ (c = '\\') := fun h => h92 (by rw [h]; decide)
                    unfold parseJStringAux
                    simp [e1, e2, ih]
theorem parseJString_print (s : String) (rest : List Char) :
    parseJString (printJString s ++ rest) = some (s, rest) := by
  unfold printJString
  rw [List.cons_append, escFold_append]
  unfold parseJString
  simp +decide [parseJStringAux_print]

theorem parseLit_self (ls rest : List Char) : parseLit ls (ls ++ rest) = some rest := by
  induction ls with
  | nil => rfl
  | cons l ls ih => simp [parseLit, ih]

theorem parseLit_ext (ys : List Char) :
    ∀ ls cs r, parseLit ls cs = some r → parseLit ls (cs ++ ys) = some (r ++ ys) := by
  intro ls
  induction ls with
  | nil => intro cs r h; simp [parseLit] at h ⊢; rw [h]
  | cons l ls ih =>
    intro cs r h
    cases cs with
    | nil => simp [parseLit] at h
    | cons c cs =>
      simp only [parseLit] at h ⊢
      by_cases hc : c = l
      · simp only [hc, if_true] at h ⊢
        exact ih cs r h
      · simp [hc] at h

theorem parseJStringAux_ext (ys : List Char) :
    ∀ cs v r, parseJStringAux cs = some (v, r) →
      parseJStringAux (cs ++ ys) = some (v, r ++ ys) := by
  intro cs
  induction cs using parseJStringAux.induct
  case case2 cs' =>
    intro v r h
    rw [parseJStringAux.eq_def] at h
    simp +decide at h
    rw [List.cons_append, parseJStringAux.eq_def]
    simp +decide
    exact ⟨h.1, by rw [h.2]⟩
  case case8 =>
    intro v r h
    rename_i e cs' hu hesc hq
    rw [parseJStringAux.eq_def] at h
    simp +decide [hu, hesc] at h
  case case9 =>
    intro v r h
    rename_i e cs' hu d hesc hrec hq ih
    rw [parseJStringAux.eq_def] at h
    simp +decide [hu, hesc, hrec] at h
  case case10 =>
    intro v r h
    rename_i e cs' hu d hesc s rest hrec hq ih
    rw [parseJStringAux.eq_def] at h
    simp +decide [hu, hesc, hrec] at h
    rw [List.cons_append, List.cons_append, parseJStringAux.eq_def]
    simp +decide [hu, hesc, ih _ _ hrec]
    exact ⟨h.1, by rw [h.2]⟩
  case case11 =>
    intro v r h
    rename_i e cs' hq hb hrec ih
    rw [parseJStringAux.eq_def] at h
    simp +decide [hq, hb, hrec] at h
  case case12 =>
    intro v r h
    rename_i e cs' hq hb s rest hrec ih
    rw [parseJStringAux.eq_def] at h
    simp +decide [hq, hb, hrec] at h
    rw [parseJStringAux.eq_def]
    simp +decide [hq, hb]
    obtain ⟨rfl, rfl⟩ := h
    rw [ih _ _ hrec]
  all_goals intro v r h
  all_goals simp_all +decide [parseJStringAux, escUnquote]

theorem parseJString_ext (ys cs : List Char) (v : String) (r : List Char)
    (h : parseJString cs = some (v, r)) : parseJString (cs ++ ys) = some (v, r ++ ys) := by
  cases cs with
  | nil => simp [parseJString] at h
  | cons c cs =>
    unfold parseJString at h ⊢
    by_cases hc : c = '"'
    · subst hc
      simp +decide at h ⊢
      cases hrec : parseJStringAux cs with
      | none => rw [hrec] at h; simp at h
      | some pr =>
        obtain ⟨s0, r0⟩ := pr
        rw [hrec] at h
        simp at h
        rw [parseJStringAux_ext ys cs s0 r0 hrec]
        simp [h.1, h.2]
    · simp [hc] at h

theorem parseEnvelopeAux_print (iv data : String) (rest : List Char) :
    parseEnvelopeAux (printEnvelope iv data ++ rest) = some ((iv, data), rest) := by
  unfold printEnvelope parseEnvelopeAux
  simp +decide [List.append_assoc, parseLit_self, parseJString_print, parseLit]

theorem parseEnvelope_print (iv data : String) :
    parseEnvelope (printEnvelope iv data) = some (iv, data) := by
  have h := parseEnvelopeAux_print iv data []
  rw [List.append_nil] at h
  unfold parseEnvelope
  rw [h]

theorem parseEnvelopeAux_ext (ys cs : List Char) (e : String × String) (r : List Char)
    (h : parseEnvelopeAux cs = some (e, r)) :
    parseEnvelopeAux (cs ++ ys) = some (e, r ++ ys) := by
  unfold parseEnvelopeAux at h ⊢
  cases h1 : parseLit envLit1 cs with
  | none => simp only [h1] at h; exact absurd h (by simp)
  | some cs1 =>
    simp only [h1] at h
    simp only [parseLit_ext ys _ _ _ h1]
    cases h2 : parseJString cs1 with
    | none => simp only [h2] at h; exact absurd h (by simp)
    | some pr =>
      obtain ⟨iv, cs2⟩ := pr
      simp only [h2] at h
      simp only [parseJString_ext ys _ _ _ h2]
      cases h3 : parseLit envLit2 cs2 with
      | none => simp only [h3] at h; exact absurd h (by simp)
      | some cs3 =>
        simp only [h3] at h
        simp only [parseLit_ext ys _ _ _ h3]
        cases h4 : parseJString cs3 with
        | none => simp only [h4] at h; exact absurd h (by simp)
        | some pr2 =>
          obtain ⟨data, cs4⟩ := pr2
          simp only [h4] at h
          simp only [parseJString_ext ys _ _ _ h4]
          cases h5 : parseLit ['\x7d'] cs4 with
          | none => simp only [h5] at h; exact absurd h (by simp)
          | some cs5 =>
            simp only [h5] at h
            simp only [parseLit_ext ys _ _ _ h5]
            simp at h ⊢
            exact ⟨h.1, by rw [h.2]⟩

theorem printEnvelope_inj {iv1 d1 iv2 d2 : String}
    (h : printEnvelope iv1 d1 = printEnvelope iv2 d2) : iv1 = iv2 ∧ d1 = d2 := by
  have h1 := parseEnvelope_print iv1 d1
  rw [h, parseEnvelope_print] at h1
  simp at h1
  exact ⟨h1.1.symm, h1.2.symm⟩

theorem parseEnvelope_truncated (iv data : String) (p q : List Char)
    (hpq : printEnvelope iv data = p ++ q) (hq : q ≠ []) : parseEnvelope p = none := by
  cases he : parseEnvelope p with
  | none => rfl
  | some e =>
    exfalso
    unfold parseEnvelope at he
    have haux : parseEnvelopeAux p = some (e, []) := by
      cases haux : parseEnvelopeAux p with
      | none => rw [haux] at he; simp at he
      | some pr =>
        obtain ⟨e', r'⟩ := pr
        rw [haux] at he
        cases r' with
        | nil => cases he; rfl
        | cons x xs => simp at he
    have hext := parseEnvelopeAux_ext q p e [] haux
    rw [← hpq] at hext
    have hfull := parseEnvelopeAux_print iv data []
    rw [List.append_nil] at hfull
    rw [hfull] at hext
    simp at hext
    exact hq hext.2

theorem sepEntries_nil : sepEntries [] = [] := rfl

theorem sepEntries_cons (e : String × Account) (es : AccountStore) :
    sepEntries (e :: es) = ',' :: (printEntry e ++ sepEntries es) := rfl

theorem sepEntries_len (es : AccountStore) : es.length ≤ (sepEntries es).length := by
  induction es with
  | nil => simp [sepEntries_nil]
  | cons e es ih => simp [sepEntries_cons]; omega

theorem parseAccount_print (a : Account) (rest : List Char) :
    parseAccount (printAccount a ++ rest) = some (a, rest) := by
  unfold printAccount parseAccount
  simp +decide [List.append_assoc, parseLit_self, parseJString_print, parseLit]

theorem parseEntry_print (e : String × Account) (rest : List Char) :
    parseEntry (printEntry e ++ rest) = some (e, rest) := by
  unfold printEntry parseEntry
  simp +decide [List.append_assoc, List.cons_append, parseJString_print, parseLit,
    parseAccount_print]

theorem parseEntriesRest_print (es : AccountStore) : ∀ fuel rest, es.length < fuel →
    parseEntriesRest fuel (sepEntries es ++ '\x7d' :: rest) = some (es, '\x7d' :: rest) := by
  induction es with
  | nil =>
    intro fuel rest hf
    cases fuel with
    | zero => omega
    | succ f => simp +decide [sepEntries_nil, parseEntriesRest]
  | cons e es ih =>
    intro fuel rest hf
    cases fuel with
    | zero => omega
    | succ f =>
      rw [sepEntries_cons, List.cons_append, List.append_assoc]
      unfold parseEntriesRest
      simp +decide [parseEntry_print, ih f rest (by simp at hf; omega)]

theorem parseAccountsAux_print (m : AccountStore) (rest : List Char) :
    parseAccountsAux (encodeAccounts m ++ rest) = some (m, rest) := by
  cases m with
  | nil => simp +decide [encodeAccounts, printEntries, parseAccountsAux]
  | cons e es =>
    have hpe := parseEntry_print e (sepEntries es ++ '\x7d' :: rest)
    have hlen := sepEntries_len es
    unfold parseAccountsAux
    simp only [encodeAccounts, printEntries, List.cons_append, List.nil_append,
      List.append_assoc]
    simp only [printEntry, printJString, List.cons_append, List.append_assoc] at hpe ⊢
    rw [hpe]
    show (match parseEntriesRest ((sepEntries es ++ '\x7d' :: rest).length + 1)
        (sepEntries es ++ '\x7d' :: rest) with
      | none => none
      | some (es2, cs4) =>
        match parseLit ['\x7d'] cs4 with
        | none => none
        | some cs5 => some (e :: es2, cs5)) = some (e :: es, rest)
    rw [parseEntriesRest_print es _ rest
      (by simp only [List.length_append, List.length_cons]; omega)]
    show (match parseLit ['\x7d'] ('\x7d' :: rest) with
      | none => none
      | some cs5 => some (e :: es, cs5)) = some (e :: es, rest)
    rw [show parseLit ['\x7d'] ('\x7d' :: rest) = some rest from by
      simpa using parseLit_self ['\x7d'] rest]

theorem decodeAccounts_encode (m : AccountStore) : decodeAccounts (encodeAccounts m) = some m := by
  have h := parseAccountsAux_print m []
  rw [List.append_nil] at h
  unfold decodeAccounts
  rw [h]

theorem b64Inv_b64Char : ∀ n, n < 64 → b64Inv (b64Char n) = some n := by decide

theorem b64Char_ne_pad : ∀ n, n < 64 → ¬ (b64Char n = '=') := by decide

theorem b64Decode_encode (bs : List Nat) (hb : ∀ b ∈ bs, b < 256) :
    b64Decode (b64Encode bs) = some bs := by
  induction bs using b64Encode.induct with
  | case1 => rfl
  | case2 a =>
    have ha : a < 256 := hb a (by simp)
    unfold b64Encode b64Decode
    simp +decide [b64Inv_b64Char _ (show a / 4 < 64 by omega),
      b64Inv_b64Char _ (show a % 4 * 16 < 64 by omega)]
    omega
  | case3 a b =>
    have ha : a < 256 := hb a (by simp)
    have hbb : b < 256 := hb b (by simp)
    unfold b64Encode b64Decode
    simp +decide [b64Inv_b64Char _ (show a / 4 < 64 by omega),
      b64Inv_b64Char _ (show a % 4 * 16 + b / 16 < 64 by omega),
      b64Inv_b64Char _ (show b % 16 * 4 < 64 by omega),
      b64Char_ne_pad _ (show b % 16 * 4 < 64 by omega)]
    omega
  | case4 a b c rest ih =>
    have ha : a < 256 := hb a (by simp)
    have hbb : b < 256 := hb b (by simp)
    have hc : c < 256 := hb c (by simp)
    have hrest : ∀ x ∈ rest, x < 256 := fun x hx => hb x (by simp [hx])
    unfold b64Encode b64Decode
    simp +decide [b64Inv_b64Char _ (show a / 4 < 64 by omega),
      b64Inv_b64Char _ (show a % 4 * 16 + b / 16 < 64 by omega),
      b64Inv_b64Char _ (show b % 16 * 4 + c / 64 < 64 by omega),
      b64Inv_b64Char _ (show c % 64 < 64 by omega),
      b64Char_ne_pad _ (show b % 16 * 4 + c / 64 < 64 by omega),
      b64Char_ne_pad _ (show c % 64 < 64 by omega),
      ih hrest]
    omega

theorem data_mk (cs : List Char) : (String.mk cs).data = cs := rfl

theorem charBytes_lt (c : Char) : ∀ b ∈ charBytes c, b < 256 := by
  intro b hb
  simp [charBytes] at hb
  rcases hb with h | h | h | h <;> omega

theorem charsToBytes_lt (cs : List Char) : ∀ b ∈ charsToBytes cs, b < 256 := by
  induction cs with
  | nil => intro b hb; simp [charsToBytes] at hb
  | cons c cs ih =>
    intro b hb
    simp only [charsToBytes, List.foldr_cons] at hb
    rcases List.mem_append.mp hb with h | h
    · exact charBytes_lt c b h
    · exact ih b h

theorem bytesToChars_charsToBytes (cs : List Char) :
    bytesToChars (charsToBytes cs) = some cs := by
  induction cs with
  | nil => rfl
  | cons c cs ih =>
    have h32 : c.toNat < 4294967296 := c.val.toNat_lt
    show bytesToChars (c.toNat / 16777216 % 256 :: c.toNat / 65536 % 256 ::
      c.toNat / 256 % 256 :: c.toNat % 256 :: charsToBytes cs) = some (c :: cs)
    unfold bytesToChars
    rw [show (((c.toNat / 16777216 % 256) * 256 + c.toNat / 65536 % 256) * 256 +
      c.toNat / 256 % 256) * 256 + c.toNat % 256 = c.toNat from by omega]
    rw [if_pos (show Nat.isValidChar c.toNat from c.valid)]
    simp only [ih]
    rw [Char.ofNat_toNat]

theorem sealAead_lt (key nonce : List Nat) (pt : List Char)
    (hk : ∀ b ∈ key, b < 256) (hn : ∀ b ∈ nonce, b < 256) :
    ∀ b ∈ sealAead key nonce pt, b < 256 := by
  intro b hb
  unfold sealAead at hb
  rcases List.mem_append.mp hb with h | h
  · rcases List.mem_append.mp h with h2 | h2
    · exact hk b h2
    · exact hn b h2
  · exact charsToBytes_lt pt b h

theorem openSealed_sealAead (key nonce : List Nat) (pt : List Char)
    (hk : key.length = 32) (hn : nonce.length = 12) :
    openSealed key nonce (sealAead key nonce pt) = some pt := by
  unfold sealAead openSealed
  rw [List.append_assoc, List.take_left' hk, List.drop_left' hk, List.take_left' hn,
    List.drop_left' hn, if_pos ⟨rfl, rfl⟩, bytesToChars_charsToBytes]

theorem openSealed_wrong_key (k1 k2 nonce iv : List Nat) (pt : List Char)
    (hk1 : k1.length = 32) (hne : k2 ≠ k1) :
    openSealed k2 iv (sealAead k1 nonce pt) = none := by
  unfold sealAead openSealed
  rw [List.append_assoc, List.take_left' hk1]
  rw [if_neg]
  intro hcon
  exact hne hcon.1.symm

theorem loadAccounts_saveAccounts (key nonce : List Nat) (m : AccountStore)
    (hk : ValidKey key) (hn : ValidNonce nonce) :
    loadAccounts key (some (saveAccounts key nonce m)) = .ok m := by
  obtain ⟨hk32, hkb⟩ := hk
  obtain ⟨hn12, hnb⟩ := hn
  unfold saveAccounts loadAccounts
  simp only [parseEnvelope_print, data_mk]
  simp only [b64Decode_encode nonce hnb]
  simp only [b64Decode_encode _ (sealAead_lt key nonce _ hkb hnb)]
  simp only [openSealed_sealAead key nonce _ hk32 hn12]
  simp only [decodeAccounts_encode]

theorem containsKey_iff_getKey (m : AccountStore) (u : String) :
    containsKey m u = true ↔ ∃ a, getKey m u = some a := by
  induction m with
  | nil => simp [containsKey, getKey]
  | cons e es ih =>
    by_cases h : e.1 = u
    · simp [containsKey, getKey, List.find?, h]
    · have hb : (e.1 == u) = false := by simp [h]
      simp only [containsKey, getKey, List.any_cons, List.find?, hb] at ih ⊢
      simp [ih]

theorem getKey_insertKey_new (m : AccountStore) (u : String) (a : Account)
    (h : containsKey m u = false) : getKey (insertKey m u a) u = some a := by
  unfold insertKey
  rw [h]
  simp only [Bool.false_eq_true, if_false]
  induction m with
  | nil => simp [getKey, List.find?]
  | cons e es ih =>
    simp only [containsKey, List.any_cons, Bool.or_eq_false_iff] at h
    simp only [List.cons_append, getKey, List.find?, h.1]
    exact ih h.2

theorem getKey_removeKey (m : AccountStore) (u : String) :
    getKey (removeKey m u) u = none := by
  induction m with
  | nil => rfl
  | cons e es ih =>
    by_cases h : e.1 = u
    · simpa [removeKey, h] using ih
    · simpa [removeKey, getKey, List.find?, h] using ih

theorem containsKey_updateKey (m : AccountStore) (u w : String) (pw nt : Option String) :
    containsKey (updateKey m u pw nt) w = containsKey m w := by
  induction m with
  | nil => rfl
  | cons e es ih =>
    by_cases h : e.1 = u
    · simp [updateKey, containsKey, h] at ih ⊢
      rw [ih]
    · simp [updateKey, containsKey, h] at ih ⊢
      rw [ih]

theorem getKey_updateKey_self (m : AccountStore) (u : String) (a : Account)
    (pw nt : Option String) (h : getKey m u = some a) :
    getKey (updateKey m u pw nt) u = some (applyUpdate a pw nt) := by
  induction m with
  | nil => simp [getKey] at h
  | cons e es ih =>
    by_cases he : e.1 = u
    · have hb : (e.1 == u) = true := by simp [he]
      simp only [getKey, List.find?, hb] at h
      simp only [updateKey, List.map_cons, hb, if_true, getKey, List.find?]
      simp only [Option.map] at h ⊢
      rw [(Option.some.injEq _ _).mp h]
    · have hb : (e.1 == u) = false := by simp [he]
      simp only [getKey, List.find?, hb] at h ih
      simp only [updateKey, List.map_cons, hb, if_false, getKey, List.find?]
      simp only [Bool.false_eq_true, if_false, hb]
      exact ih h

theorem getKey_updateKey_other (m : AccountStore) (u w : String)
    (pw nt : Option String) (hw : w ≠ u) :
    getKey (updateKey m u pw nt) w = getKey m w := by
  induction m with
  | nil => rfl
  | cons e es ih =>
    by_cases he : e.1 = u
    · have hbu : (e.1 == u) = true := by simp [he]
      have hbw : (e.1 == w) = false := by
        simp only [beq_eq_false_iff_ne, ne_eq]
        intro hcon
        exact hw (by rw [← hcon, he])
      simp only [updateKey, List.map_cons, hbu, if_true, getKey, List.find?, hbw]
      simp only [updateKey, getKey] at ih
      exact ih
    · have hbu : (e.1 == u) = false := by simp [he]
      by_cases hew : e.1 = w
      · have hbw : (e.1 == w) = true := by simp [hew]
        simp only [updateKey, List.map_cons, hbu, Bool.false_eq_true, if_false, getKey,
          List.find?, hbw]
      · have hbw : (e.1 == w) = false := by simp [hew]
        simp only [updateKey, List.map_cons, hbu, Bool.false_eq_true, if_false, getKey,
          List.find?, hbw]
        simp only [updateKey, getKey] at ih
        exact ih

theorem word4_lt (n : Nat) : ∀ b ∈ word4 n, b < 256 := by
  intro b hb
  simp [word4] at hb
  rcases hb with h | h | h | h <;> omega

theorem digestBytes_len (st : Sha8) : (digestBytes st).length = 32 := by
  simp [digestBytes, word4]

theorem digestBytes_lt (st : Sha8) : ∀ b ∈ digestBytes st, b < 256 := by
  intro b hb
  simp only [digestBytes, List.append_assoc, List.mem_append] at hb
  rcases hb with h | h | h | h | h | h | h | h <;> exact word4_lt _ b h

theorem derive_key_valid (s : String) : ValidKey (derive_key s) :=
  ⟨digestBytes_len _, digestBytes_lt _⟩

/-- Sanity: the implemented SHA-256 matches the NIST test vector for "abc". -/
theorem sha256_vector_abc : sha256 [97, 98, 99] =
    [0xba, 0x78, 0x16, 0xbf, 0x8f, 0x01, 0xcf, 0xea, 0x41, 0x41, 0x40, 0xde, 0x5d, 0xae,
     0x22, 0x23, 0xb0, 0x03, 0x61, 0xa3, 0x96, 0x17, 0x7a, 0x9c, 0xb4, 0x10, 0xff, 0x61,
     0xf2, 0x00, 0x15, 0xad] := by decide

theorem updateKey_none (m : AccountStore) (u : String) : updateKey m u none none = m := by
  unfold updateKey
  have he : ∀ e : String × Account,
      (if e.1 == u then (e.1, applyUpdate e.2 none none) else e) = e := by
    intro e
    rw [show ((e.1, applyUpdate e.2 none none) : String × Account) = e from rfl]
    exact ite_self e
  simp only [he, List.map_id']

/-- C2: for every account map, including the empty one, deserializing the
serialized map yields the map back: `decode(encode(m)) = m`. -/
theorem C2_codec_roundtrip (m : AccountStore) (_hkeys : keysDistinct m) :
    decodeAccounts (encodeAccounts m) = some m :=
  decodeAccounts_encode m

theorem C2_witness :
    keysDistinct storeW ∧ decodeAccounts (encodeAccounts storeW) = some storeW :=
  ⟨show storeW.Pairwise (fun e e' => e.1 ≠ e'.1) from by decide,
   C2_codec_roundtrip storeW (show storeW.Pairwise (fun e e' => e.1 ≠ e'.1) from by decide)⟩

/-- C3: sealing a payload under a 32-byte key and a 12-byte nonce and then
opening the result under the same key and nonce returns exactly the
payload. -/
theorem C3_seal_open_roundtrip (key nonce : List Nat) (pt : List Char)
    (hk : key.length = 32) (hn : nonce.length = 12) :
    openSealed key nonce (sealAead key nonce pt) = some pt :=
  openSealed_sealAead key nonce pt hk hn

theorem C3_witness :
    keyW.length = 32 ∧ nonceW.length = 12 ∧
      openSealed keyW nonceW (sealAead keyW nonceW ['h', 'i']) = some ['h', 'i'] :=
  ⟨by decide, by decide, C3_seal_open_roundtrip keyW nonceW ['h', 'i'] (by decide) (by decide)⟩

/-- C4: opening a ciphertext sealed under `k1` with a different key `k2`
fails and never returns plaintext, and at the repository level the failed
authentication surfaces as the one aes error, the same signal corruption
produces. -/
theorem C4_wrong_key (k1 k2 nonce : List Nat) (pt : List Char) (m : AccountStore)
    (hk1 : ValidKey k1) (hn : ValidNonce nonce) (hne : k2 ≠ k1) :
    openSealed k2 nonce (sealAead k1 nonce pt) = none ∧
    loadAccounts k2 (some (saveAccounts k1 nonce m)) =
      .error (.aesError "加密/解密操作失败") := by
  constructor
  · exact openSealed_wrong_key k1 k2 nonce nonce pt hk1.1 hne
  · unfold saveAccounts loadAccounts
    simp only [parseEnvelope_print, data_mk]
    simp only [b64Decode_encode nonce hn.2]
    simp only [b64Decode_encode _ (sealAead_lt k1 nonce _ hk1.2 hn.2)]
    simp only [openSealed_wrong_key k1 k2 nonce nonce _ hk1.1 hne]

theorem C4_witness :
    openSealed (List.replicate 32 0) nonceW (sealAead keyW nonceW ['h']) = none ∧
    loadAccounts (List.replicate 32 0) (some (saveAccounts keyW nonceW storeW)) =
      .error (.aesError "加密/解密操作失败") :=
  ⟨(C4_wrong_key keyW (List.replicate 32 0) nonceW ['h'] storeW
      ⟨by decide, by decide⟩ ⟨by decide, by decide⟩ (by decide)).1,
   (C4_wrong_key keyW (List.replicate 32 0) nonceW ['h'] storeW
      ⟨by decide, by decide⟩ ⟨by decide, by decide⟩ (by decide)).2⟩

/-- C8: key derivation is the single unsalted, un-iterated SHA-256 hash of
the passphrase's UTF-8 bytes, total and deterministic, always producing
exactly 32 bytes. -/
theorem C8_derive_key (s : String) :
    derive_key s = sha256 (utf8Bytes s) ∧ (derive_key s).length = 32 ∧
      (∀ b ∈ derive_key s, b < 256) ∧ ∀ t, s = t → derive_key s = derive_key t :=
  ⟨rfl, digestBytes_len _, digestBytes_lt _, fun _ ht => by rw [ht]⟩

theorem C8_witness :
    (derive_key "abc").length = 32 ∧ derive_key "abc" = derive_key "abc" :=
  ⟨(C8_derive_key "abc").2.1, (C8_derive_key "abc").2.2.2 "abc" rfl⟩

/-- C9: a truncated write can never be accepted later: every strict
initial segment of the envelope text written by `save_accounts` fails to
parse, and the next load surfaces that as an error rather than
silently accepting a corrupt envelope. -/
theorem C9_truncated_write (key nonce : List Nat) (m : AccountStore) (p q : List Char)
    (hpq : saveAccounts key nonce m = p ++ q) (hq : q ≠ []) :
    parseEnvelope p = none ∧ ∀ k2, loadAccounts k2 (some p) = .error .serdeError := by
  have hp : parseEnvelope p = none := parseEnvelope_truncated _ _ p q hpq hq
  refine ⟨hp, fun k2 => ?_⟩
  unfold loadAccounts
  simp only [hp]

theorem C9_witness :
    parseEnvelope (List.take 10 (saveAccounts keyW nonceW storeW)) = none ∧
    ∀ k2, loadAccounts k2 (some (List.take 10 (saveAccounts keyW nonceW storeW))) =
      .error .serdeError :=
  C9_truncated_write keyW nonceW storeW
    (List.take 10 (saveAccounts keyW nonceW storeW))
    (List.drop 10 (saveAccounts keyW nonceW storeW))
    (List.take_append_drop 10 (saveAccounts keyW nonceW storeW)).symm (by decide)

/-- C1: when the precondition of a mutation fails (Add on a present
username; Delete or Update on an absent one), the call returns the error
and the backing file is exactly what it was: no write happens. -/
theorem C1_failed_mutation_no_write (key nonce : List Nat) (fs : FileState)
    (m : AccountStore) (hload : loadAccounts key fs = .ok m) :
    (∀ u p n, containsKey m u = true →
      addAccount key u p n nonce fs = (.error (.otherError "账号已存在"), fs)) ∧
    (∀ u, containsKey m u = false →
      deleteAccount key u nonce fs = (.error (.otherError "账号不存在"), fs)) ∧
    (∀ u pw nt, containsKey m u = false →
      updateAccount key u pw nt nonce fs = (.error (.otherError "账号不存在"), fs)) := by
  refine ⟨fun u p n hc => ?_, fun u hc => ?_, fun u pw nt hc => ?_⟩
  · unfold addAccount
    simp only [hload, hc, if_true]
  · unfold deleteAccount
    simp only [hload, hc, Bool.false_eq_true, if_false]
  · unfold updateAccount
    simp only [hload, hc, Bool.false_eq_true, if_false]

theorem C1_witness :
    addAccount keyW "alice" "q" "z" nonceW fsW = (.error (.otherError "账号已存在"), fsW) ∧
    deleteAccount keyW "bob" nonceW fsW = (.error (.otherError "账号不存在"), fsW) ∧
    updateAccount keyW "bob" (some "q") none nonceW fsW =
      (.error (.otherError "账号不存在"), fsW) :=
  ⟨(C1_failed_mutation_no_write keyW nonceW fsW storeW (by decide)).1 "alice" "q" "z"
      (by decide),
   (C1_failed_mutation_no_write keyW nonceW fsW storeW (by decide)).2.1 "bob" (by decide),
   (C1_failed_mutation_no_write keyW nonceW fsW storeW (by decide)).2.2 "bob" (some "q") none
      (by decide)⟩

/-- C7: with no backing file, loading yields the empty store rather than an
error, List returns the empty table, Get and the failing mutations leave
the file nonexistent, and the file first comes into existence through the
first successful Add. -/
theorem C7_fresh_environment (key nonce : List Nat) (u p n : String)
    (pw nt : Option String) :
    loadAccounts key none = .ok [] ∧
    listAccounts key none = (.ok [], none) ∧
    getAccount key u none = (.error (.otherError "账号不存在"), none) ∧
    deleteAccount key u nonce none = (.error (.otherError "账号不存在"), none) ∧
    updateAccount key u pw nt nonce none = (.error (.otherError "账号不存在"), none) ∧
    addAccount key u p n nonce none = (.ok (), some (saveAccounts key nonce [(u, ⟨p, n⟩)])) :=
  ⟨rfl, rfl, rfl, rfl, rfl, rfl⟩

/-- C5: Add fails with the already-exists error exactly when the username
is present; Delete, Update and Get fail with the not-found error exactly
when it is absent; when the precondition holds, Add persists the map with
the new account inserted, Delete persists it with the entry removed, and
Get returns the stored account. -/
theorem C5_crud_conditions (key nonce : List Nat) (fs : FileState) (m : AccountStore)
    (u p n : String) (pw nt : Option String)
    (hk : ValidKey key) (hn : ValidNonce nonce)
    (hload : loadAccounts key fs = .ok m) :
    ((addAccount key u p n nonce fs).1 = .error (.otherError "账号已存在") ↔
      containsKey m u = true) ∧
    ((deleteAccount key u nonce fs).1 = .error (.otherError "账号不存在") ↔
      containsKey m u = false) ∧
    ((updateAccount key u pw nt nonce fs).1 = .error (.otherError "账号不存在") ↔
      containsKey m u = false) ∧
    ((getAccount key u fs).1 = .error (.otherError "账号不存在") ↔
      containsKey m u = false) ∧
    (containsKey m u = false →
      addAccount key u p n nonce fs =
        (.ok (), some (saveAccounts key nonce (insertKey m u ⟨p, n⟩))) ∧
      loadAccounts key (some (saveAccounts key nonce (insertKey m u ⟨p, n⟩))) =
        .ok (insertKey m u ⟨p, n⟩) ∧
      getKey (insertKey m u ⟨p, n⟩) u = some ⟨p, n⟩) ∧
    (containsKey m u = true →
      deleteAccount key u nonce fs =
        (.ok (), some (saveAccounts key nonce (removeKey m u))) ∧
      loadAccounts key (some (saveAccounts key nonce (removeKey m u))) =
        .ok (removeKey m u) ∧
      getKey (removeKey m u) u = none) ∧
    (∀ a, getKey m u = some a → getAccount key u fs = (.ok a, fs)) := by
  cases hc : containsKey m u with
  | false =>
    refine ⟨?_, ?_, ?_, ?_, fun _ => ⟨?_, ?_, ?_⟩, fun hcon => absurd hcon (by simp), ?_⟩
    · unfold addAccount
      simp [hload, hc]
    · unfold deleteAccount
      simp [hload, hc]
    · unfold updateAccount
      simp [hload, hc]
    · unfold getAccount
      simp [hload, hc]
    · unfold addAccount
      simp only [hload, hc, Bool.false_eq_true, if_false]
    · exact loadAccounts_saveAccounts key nonce _ hk hn
    · exact getKey_insertKey_new m u ⟨p, n⟩ hc
    · intro a ha
      have := (containsKey_iff_getKey m u).mpr ⟨a, ha⟩
      rw [hc] at this
      exact absurd this (by simp)
  | true =>
    obtain ⟨a0, ha0⟩ := (containsKey_iff_getKey m u).mp hc
    refine ⟨?_, ?_, ?_, ?_, fun hcon => absurd hcon (by simp), fun _ => ⟨?_, ?_, ?_⟩, ?_⟩
    · unfold addAccount
      simp [hload, hc]
    · unfold deleteAccount
      simp [hload, hc]
    · unfold updateAccount
      simp [hload, hc]
    · unfold getAccount
      simp [hload, hc, ha0]
    · unfold deleteAccount
      simp only [hload, hc, if_true]
    · exact loadAccounts_saveAccounts key nonce _ hk hn
    · exact getKey_removeKey m u
    · intro a ha
      unfold getAccount
      simp only [hload, hc, if_true, ha]

theorem C5_witness :
    (addAccount keyW "alice" "q" "z" nonceW fsW).1 = .error (.otherError "账号已存在") ∧
    deleteAccount keyW "alice" nonceW fsW =
      (.ok (), some (saveAccounts keyW nonceW (removeKey storeW "alice"))) ∧
    getAccount keyW "alice" fsW = (.ok acctW, fsW) :=
  ⟨((C5_crud_conditions keyW nonceW fsW storeW "alice" "q" "z" none none
      ⟨by decide, by decide⟩ ⟨by decide, by decide⟩ (by decide)).1).mpr (by decide),
   ((C5_crud_conditions keyW nonceW fsW storeW "alice" "q" "z" none none
      ⟨by decide, by decide⟩ ⟨by decide, by decide⟩ (by decide)).2.2.2.2.2.1 (by decide)).1,
   (C5_crud_conditions keyW nonceW fsW storeW "alice" "q" "z" none none
      ⟨by decide, by decide⟩ ⟨by decide, by decide⟩ (by decide)).2.2.2.2.2.2 acctW
      (by decide)⟩

/-- C6: Update overwrites only the provided fields: updating just the
password leaves the notes untouched and vice versa, other entries are
unchanged, and a following Get returns the partially updated account. -/
theorem C6_update_partial_fields (key nonce : List Nat) (fs : FileState) (m : AccountStore)
    (u p1 n1 p2 n2 : String) (hk : ValidKey key) (hn : ValidNonce nonce)
    (hload : loadAccounts key fs = .ok m) (hget : getKey m u = some ⟨p1, n1⟩) :
    (updateAccount key u (some p2) none nonce fs =
      (.ok (), some (saveAccounts key nonce (updateKey m u (some p2) none))) ∧
     (getAccount key u (some (saveAccounts key nonce (updateKey m u (some p2) none)))).1 =
       .ok ⟨p2, n1⟩ ∧
     (∀ w, w ≠ u → getKey (updateKey m u (some p2) none) w = getKey m w)) ∧
    (updateAccount key u none (some n2) nonce fs =
      (.ok (), some (saveAccounts key nonce (updateKey m u none (some n2)))) ∧
     (getAccount key u (some (saveAccounts key nonce (updateKey m u none (some n2))))).1 =
       .ok ⟨p1, n2⟩ ∧
     (∀ w, w ≠ u → getKey (updateKey m u none (some n2)) w = getKey m w)) := by
  have hc : containsKey m u = true := (containsKey_iff_getKey m u).mpr ⟨_, hget⟩
  have hsave := fun m' => loadAccounts_saveAccounts key nonce m' hk hn
  constructor
  · refine ⟨?_, ?_, fun w hw => getKey_updateKey_other m u w _ _ hw⟩
    · unfold updateAccount
      simp only [hload, hc, if_true]
    · unfold getAccount
      simp only [hsave, containsKey_updateKey, hc, if_true,
        getKey_updateKey_self m u _ _ _ hget]
      rfl
  · refine ⟨?_, ?_, fun w hw => getKey_updateKey_other m u w _ _ hw⟩
    · unfold updateAccount
      simp only [hload, hc, if_true]
    · unfold getAccount
      simp only [hsave, containsKey_updateKey, hc, if_true,
        getKey_updateKey_self m u _ _ _ hget]
      rfl

theorem C6_witness :
    updateAccount keyW "alice" (some "p2") none nonceW fsW =
      (.ok (), some (saveAccounts keyW nonceW (updateKey storeW "alice" (some "p2") none))) ∧
    (getAccount keyW "alice"
      (some (saveAccounts keyW nonceW (updateKey storeW "alice" (some "p2") none)))).1 =
      .ok ⟨"p2", "n"⟩ :=
  ⟨((C6_update_partial_fields keyW nonceW fsW storeW "alice" "p1" "n" "p2" "n2"
      ⟨by decide, by decide⟩ ⟨by decide, by decide⟩ (by decide) (by decide)).1).1,
   ((C6_update_partial_fields keyW nonceW fsW storeW "alice" "p1" "n" "p2" "n2"
      ⟨by decide, by decide⟩ ⟨by decide, by decide⟩ (by decide) (by decide)).1).2.1⟩

/-- C10: an Update providing neither field still succeeds, re-encrypts the
unchanged map under the fresh nonce and rewrites the file; the decrypted
map is identical, and whenever the fresh nonce differs from the stored one
the persisted envelope bytes differ. -/
theorem C10_noop_update_rewrites (key nonce0 nonce : List Nat) (m : AccountStore)
    (u : String) (hk : ValidKey key) (hn0 : ValidNonce nonce0) (hn : ValidNonce nonce)
    (hc : containsKey m u = true) :
    updateAccount key u none none nonce (some (saveAccounts key nonce0 m)) =
      (.ok (), some (saveAccounts key nonce m)) ∧
    loadAccounts key (some (saveAccounts key nonce m)) = .ok m ∧
    (nonce ≠ nonce0 → saveAccounts key nonce m ≠ saveAccounts key nonce0 m) := by
  refine ⟨?_, loadAccounts_saveAccounts key nonce m hk hn, fun hne hcon => ?_⟩
  · unfold updateAccount
    simp only [loadAccounts_saveAccounts key nonce0 m hk hn0, hc, if_true, updateKey_none]
  · have hinj := printEnvelope_inj hcon
    have hdata := congrArg String.data hinj.1
    simp only [data_mk] at hdata
    have h2 : (some nonce : Option (List Nat)) = some nonce0 := by
      rw [← b64Decode_encode nonce hn.2, ← b64Decode_encode nonce0 hn0.2, hdata]
    exact hne ((Option.some.injEq _ _).mp h2)

theorem C10_witness :
    updateAccount keyW "alice" none none nonceW2 (some (saveAccounts keyW nonceW storeW)) =
      (.ok (), some (saveAccounts keyW nonceW2 storeW)) ∧
    loadAccounts keyW (some (saveAccounts keyW nonceW2 storeW)) = .ok storeW ∧
    saveAccounts keyW nonceW2 storeW ≠ saveAccounts keyW nonceW storeW := by
  have h := C10_noop_update_rewrites keyW nonceW nonceW2 storeW "alice"
    ⟨by decide, by decide⟩ ⟨by decide, by decide⟩ ⟨by decide, by decide⟩ (by decide)
  exact ⟨h.1, h.2.1, h.2.2 (by decide)⟩

end Passman
